import Mathlib

/-!
# Release resolution of `v2/internal/github/github.go`

A shallow embedding of the five exported functions of the package
(`GetReleaseNotes`, `GetVersionTags`, `GetLatestStableRelease`,
`GetLatestPreRelease`, `IsValidTag`) and the properties of the release
resolver they implement.

Conventions of the embedding:

* a Go `string` is a Lean `String`; the only byte-level operations of the file
  (`tagVersion[0] == 'v'`, `tagVersion[1:]`, `strings.HasPrefix(_, "v2")`)
  touch one-byte characters only, so they agree with the character-level ones;
* a Go multi-value return `(x, err)` is a pair whose second component is an
  `Option`, `none` standing for `nil`;
* a call either returns or panics (`Outcome`), and it records the URLs it
  requested through `http.Get` (`Run.requests`);
* the declarations the file uses but does not contain (the `SemanticVersion`
  type with its methods, `SemverCollection`, the standard library and
  `glamour`) are the fields of `Env`.
-/

namespace Github

/-! ## Values -/

/-- A value of type `interface{}` as far as this file looks at it: `nil`, a
`string`, or a value of some other dynamic type. -/
inductive Iface where
  | nil
  | str (s : String)
  | other
  deriving DecidableEq, Repr

/-- A decoded JSON object, `map[string]interface{}`: the function from keys
to values, `Iface.nil` at a missing key. -/
abbrev JSONObject : Type := String → Iface

/-- A Go `error`: either made in this file with `fmt.Errorf`, or received from
a callee (`http.Get`, `io.ReadAll`, `json.Unmarshal`, `NewSemanticVersion`,
`glamour`). -/
inductive GoError (E : Type) where
  | errorf (msg : String)
  | upstream (e : E)
  deriving DecidableEq, Repr

/-- The run-time panics this file can raise. -/
inductive Panic where
  /-- `tagVersion[0]` on the empty string. -/
  | indexOutOfRange
  /-- `x.(string)` on an interface value that holds no string. -/
  | typeAssertion
  deriving DecidableEq, Repr

/-- How a call ends: it returns a value or it panics. -/
inductive Outcome (α : Type) where
  | ret (a : α)
  | panic (p : Panic)
  deriving DecidableEq, Repr

/-- A finished call: how it ended and the URLs it requested with `http.Get`,
in order. -/
structure Run (α : Type) where
  out : Outcome α
  requests : List String
  deriving DecidableEq, Repr

/-- How a `for ... range` loop ends: it runs to completion with the loop
variables `s`, it executes a `return r`, or it panics. -/
inductive Loop (σ ρ : Type) where
  | done (s : σ)
  | returned (r : ρ)
  | panicked (p : Panic)
  deriving DecidableEq, Repr

/-- The two style options `GetReleaseNotes` passes to `glamour.NewTermRenderer`:
`glamour.WithStyles(glamour.NoTTYStyleConfig)` and `glamour.WithAutoStyle()`. -/
inductive StyleOption where
  | noTTY
  | auto
  deriving DecidableEq, Repr

/-- Everything `github.go` calls but does not define.

The first group is the rest of the package (`SemanticVersion`, its
constructor and methods, and the order of `SemverCollection`); the second
group is the standard library and `glamour`. -/
structure Env where
  /-- Error values produced by callees. -/
  Err : Type
  /-- The values behind `*SemanticVersion`. -/
  Version : Type
  /-- The values behind `*http.Response`. -/
  Response : Type
  /-- The byte slice read from a response body. -/
  Body : Type
  /-- The values behind `*glamour.TermRenderer`. -/
  Renderer : Type
  /-- `NewSemanticVersion(version)`. -/
  NewSemanticVersion : String → Except Err Version
  /-- `SemverCollection.Less(i, j)` as a relation between the elements at
  `i` and `j`. -/
  Less : Version → Version → Bool
  /-- `(*SemanticVersion).IsRelease`. -/
  IsRelease : Version → Bool
  /-- `(*SemanticVersion).IsPreRelease`. -/
  IsPreRelease : Version → Bool
  /-- `http.Get(url)`. -/
  httpGet : String → Except Err Response
  /-- `io.ReadAll(resp.Body)`. -/
  readAll : Response → Except Err Body
  /-- `json.Unmarshal(body, &data)` for `data` of type
  `[]map[string]interface{}`. -/
  unmarshalList : Body → Except Err (List JSONObject)
  /-- `json.Unmarshal(body, &data)` for `data` of type
  `map[string]interface{}`. -/
  unmarshalMap : Body → Except Err JSONObject
  /-- `sort.Sort` on a slice of versions ordered by the given `Less`. -/
  sortSort : (Version → Version → Bool) → List Version → List Version
  /-- `runtime.GOOS`. -/
  GOOS : String
  /-- `glamour.NewTermRenderer(option)`. -/
  NewTermRenderer : StyleOption → Except Err Renderer
  /-- `renderer.Render(text)`. -/
  Render : Renderer → String → String × Option Err
  /-- `(*SemanticVersion).String`. -/
  String : Version → String

/-! ## Library functions with a definition of their own -/

/-- `strings.HasPrefix(s, pre)`. -/
def HasPrefix (s pre : String) : Bool :=
  pre.data.isPrefixOf s.data

/-- `sort.Reverse`: the order whose `Less(i, j)` is the `Less(j, i)` of the
order it wraps. -/
def Reverse {α : Type} (less : α → α → Bool) : α → α → Bool :=
  fun a b => less b a

/-! ## GetVersionTags -/

/-- The URL `GetVersionTags` requests. -/
def tagsURL : String := "https://api.github.com/repos/wailsapp/wails/tags"

/-- The loop of `GetVersionTags` (lines 70-80) over the remaining tag objects,
`result` being the versions appended so far. -/
def GetVersionTags.convert (env : Env) :
    List JSONObject → List env.Version →
      Loop (List env.Version) (List env.Version × Option (GoError env.Err))
  | [], result => .done result
  | tag :: data, result =>
    match tag "name" with
    | .str version =>
      if !HasPrefix version "v2" then
        GetVersionTags.convert env data result
      else
        match env.NewSemanticVersion version with
        | .error err => .returned (result, some (.upstream err))
        | .ok semver => GetVersionTags.convert env data (result ++ [semver])
    | _ => .panicked .typeAssertion

/-- `GetVersionTags()`. -/
def GetVersionTags (env : Env) : Run (List env.Version × Option (GoError env.Err)) :=
  let result : List env.Version := []
  match env.httpGet tagsURL with
  | .error err => ⟨.ret (result, some (.upstream err)), [tagsURL]⟩
  | .ok resp =>
    match env.readAll resp with
    | .error err => ⟨.ret (result, some (.upstream err)), [tagsURL]⟩
    | .ok body =>
      match env.unmarshalList body with
      | .error err => ⟨.ret (result, some (.upstream err)), [tagsURL]⟩
      | .ok data =>
        match GetVersionTags.convert env data result with
        | .panicked p => ⟨.panic p, [tagsURL]⟩
        | .returned r => ⟨.ret r, [tagsURL]⟩
        | .done result => ⟨.ret (env.sortSort (Reverse env.Less) result, none), [tagsURL]⟩

/-! ## GetLatestStableRelease, GetLatestPreRelease -/

/-- The loop of `GetLatestStableRelease` (lines 96-100) followed by the final
`return nil, fmt.Errorf("no release tag found")`. -/
def GetLatestStableRelease.scan (env : Env) :
    List env.Version → Option env.Version × Option (GoError env.Err)
  | [] => (none, some (.errorf "no release tag found"))
  | tag :: tags =>
    if env.IsRelease tag then (some tag, none)
    else GetLatestStableRelease.scan env tags

/-- `GetLatestStableRelease()`. -/
def GetLatestStableRelease (env : Env) :
    Run (Option env.Version × Option (GoError env.Err)) :=
  let r := GetVersionTags env
  match r.out with
  | .panic p => ⟨.panic p, r.requests⟩
  | .ret (_, some err) => ⟨.ret (none, some err), r.requests⟩
  | .ret (tags, none) => ⟨.ret (GetLatestStableRelease.scan env tags), r.requests⟩

/-- The loop of `GetLatestPreRelease` (lines 113-117) followed by the final
`return nil, fmt.Errorf("no prerelease tag found")`. -/
def GetLatestPreRelease.scan (env : Env) :
    List env.Version → Option env.Version × Option (GoError env.Err)
  | [] => (none, some (.errorf "no prerelease tag found"))
  | tag :: tags =>
    if env.IsPreRelease tag then (some tag, none)
    else GetLatestPreRelease.scan env tags

/-- `GetLatestPreRelease()`. -/
def GetLatestPreRelease (env : Env) :
    Run (Option env.Version × Option (GoError env.Err)) :=
  let r := GetVersionTags env
  match r.out with
  | .panic p => ⟨.panic p, r.requests⟩
  | .ret (_, some err) => ⟨.ret (none, some err), r.requests⟩
  | .ret (tags, none) => ⟨.ret (GetLatestPreRelease.scan env tags), r.requests⟩

/-! ## IsValidTag -/

/-- The loop of `IsValidTag` (lines 132-136) followed by the final
`return false, nil`. -/
def IsValidTag.scan (env : Env) (tagVersion : String) :
    List env.Version → Bool × Option (GoError env.Err)
  | [] => (false, none)
  | tag :: tags =>
    if env.String tag = tagVersion then (true, none)
    else IsValidTag.scan env tagVersion tags

/-- `IsValidTag(tagVersion)`. The index `tagVersion[0]` panics on the empty
string, before anything else is done. -/
def IsValidTag (env : Env) (tagVersion : String) :
    Run (Bool × Option (GoError env.Err)) :=
  match tagVersion.data with
  | [] => ⟨.panic .indexOutOfRange, []⟩
  | c :: rest =>
    let tagVersion := if c = 'v' then String.mk rest else tagVersion
    let r := GetVersionTags env
    match r.out with
    | .panic p => ⟨.panic p, r.requests⟩
    | .ret (_, some err) => ⟨.ret (false, some err), r.requests⟩
    | .ret (tags, none) => ⟨.ret (IsValidTag.scan env tagVersion tags), r.requests⟩

/-! ## GetReleaseNotes -/

/-- The URL `GetReleaseNotes` requests for a tag. -/
def releaseURL (tagVersion : String) : String :=
  "https://api.github.com/repos/wailsapp/wails/releases/tags/" ++ tagVersion

/-- `GetReleaseNotes(tagVersion)`. -/
def GetReleaseNotes (env : Env) (tagVersion : String) :
    Run (String × Option (GoError env.Err)) :=
  let url := releaseURL tagVersion
  match env.httpGet url with
  | .error err => ⟨.ret ("", some (.upstream err)), [url]⟩
  | .ok resp =>
    match env.readAll resp with
    | .error err => ⟨.ret ("", some (.upstream err)), [url]⟩
    | .ok body =>
      match env.unmarshalMap body with
      | .error err => ⟨.ret ("", some (.upstream err)), [url]⟩
      | .ok data =>
        if data "body" = Iface.nil then
          ⟨.ret ("", some (.errorf "no release notes found")), [url]⟩
        else
          let made :=
            if env.GOOS = "windows" then env.NewTermRenderer .noTTY
            else env.NewTermRenderer .auto
          match made with
          | .error _ => ⟨.ret ("", none), [url]⟩
          | .ok renderer =>
            match data "body" with
            | .str notes =>
              let result := "# Release Notes for " ++ tagVersion ++ "\n" ++ notes
              let rendered := env.Render renderer result
              ⟨.ret (rendered.1, rendered.2.map .upstream), [url]⟩
            | _ => ⟨.panic .typeAssertion, [url]⟩

/-! ## The semantic-version model of the specification

`semver.go` is not part of the sources at hand. The development is generic in
it (`Env`); the model below follows the specification (sections 3 and 4) and
serves as the concrete instance on which the results are exercised. -/

namespace Model

/-- Modelled from the spec: the structured pre-release tag of section 3, a
label with an optional trailing numeric component (section 4.1). -/
structure PreRelease where
  label : List Char
  number : Option Nat
  deriving DecidableEq, Repr

/-- Modelled from the spec: the `SemanticVersion` entity of section 3, absent
from the sources (`semver.go`). -/
structure SemanticVersion where
  major : Nat
  minor : Nat
  patch : Nat
  prerelease : Option PreRelease
  originalString : String
  deriving DecidableEq, Repr

/-- Modelled from the spec: a numeric component is "a non-negative base-10
integer with no extraneous characters" (section 4.1); there is no number in
the empty string. -/
def parseNumber (cs : List Char) : Option Nat :=
  if cs ≠ [] ∧ cs.all Char.isDigit = true then
    some (cs.foldl (fun n c => 10 * n + (c.toNat - 48)) 0)
  else none

/-- Modelled from the spec: the fields of a string between the occurrences of
a separator character, for the dotted forms of section 4.1. -/
def fields (sep : Char) : List Char → List (List Char)
  | [] => [[]]
  | c :: cs =>
    if c = sep then [] :: fields sep cs
    else
      match fields sep cs with
      | [] => [[c]]
      | f :: fs => (c :: f) :: fs

/-- Modelled from the spec: the pre-release grammar of section 4.1, "label.number
or label alone". -/
def parsePreRelease (ident : List Char) : Option PreRelease :=
  match fields '.' ident with
  | [label] => if label = [] then none else some ⟨label, none⟩
  | [label, number] =>
    if label = [] then none
    else (parseNumber number).map (fun n => ⟨label, some n⟩)
  | _ => none

/-- Modelled from the spec: `parse` of section 4.1 (`NewSemanticVersion`,
absent from the sources). A single leading `v` is stripped; the rest is
`MAJOR.MINOR.PATCH`, optionally followed by `-` and a pre-release identifier.
The error is the offending string. -/
def NewSemanticVersion (raw : String) : Except String SemanticVersion :=
  let text := match raw.data with
    | 'v' :: rest => rest
    | cs => cs
  let core := text.takeWhile (fun c => c != '-')
  let suffix := text.dropWhile (fun c => c != '-')
  match (fields '.' core).map parseNumber with
  | [some major, some minor, some patch] =>
    match suffix with
    | [] => .ok ⟨major, minor, patch, none, String.mk text⟩
    | _ :: ident =>
      match parsePreRelease ident with
      | some pre => .ok ⟨major, minor, patch, some pre, String.mk text⟩
      | none => .error raw
  | _ => .error raw

/-- Modelled from the spec: the rank of a pre-release qualifier in the order
of section 4.2, steps 2 to 4. A stable version ranks above every pre-release;
pre-releases rank by label, lexicographically, then by number, an absent
number first. -/
def rank : Option PreRelease → Nat ×ₗ List Nat ×ₗ Nat
  | none => toLex (1, toLex ([], 0))
  | some pre =>
    toLex (0, toLex (pre.label.map Char.toNat,
      match pre.number with
      | none => 0
      | some n => n + 1))

/-- Modelled from the spec: the key by which section 4.2 orders versions:
major, minor, patch, then the pre-release rank; the first difference
decides. -/
def key (v : SemanticVersion) : Nat ×ₗ Nat ×ₗ Nat ×ₗ Nat ×ₗ List Nat ×ₗ Nat :=
  toLex (v.major, toLex (v.minor, toLex (v.patch, rank v.prerelease)))

/-- Modelled from the spec: `SemverCollection.Less` (absent from the sources),
the "less" outcome of `compare` in section 4.2. -/
def Less (a b : SemanticVersion) : Bool :=
  decide (key a < key b)

/-- Modelled from the spec: `isRelease` of section 4.3. -/
def IsRelease (v : SemanticVersion) : Bool :=
  v.prerelease.isNone

/-- Modelled from the spec: `isPreRelease` of section 4.3. -/
def IsPreRelease (v : SemanticVersion) : Bool :=
  !IsRelease v

/-- Modelled from the spec: the string form of a version, its
`originalString` (section 3). -/
def toString (v : SemanticVersion) : String :=
  v.originalString

end Model

/-- Modelled from the spec: the decoded answer of the Tag Source of section 6,
one object per tag, holding the tag name under `name`. -/
def tagObjects (names : List String) : List JSONObject :=
  names.map (fun name key => if key = "name" then Iface.str name else Iface.nil)

/-- Modelled from the spec: a Tag Source whose answer decodes to the given
names, whatever the body. -/
def servingTags (names : List String) : String → Except String (List JSONObject) :=
  fun _ => .ok (tagObjects names)

/-- Modelled from the spec: the collaborators of section 6 as in-memory
fixtures around the version model. The Tag Source answers with the given tag
names, the Release Notes Source with a fixed text, and the Text Renderer is
the identity, available when `terminal` holds. Sorting is insertion sort. -/
def specEnv (tags : List String) (terminal : Bool) : Env where
  Err := String
  Version := Model.SemanticVersion
  Response := String
  Body := String
  Renderer := StyleOption
  NewSemanticVersion := Model.NewSemanticVersion
  Less := Model.Less
  IsRelease := Model.IsRelease
  IsPreRelease := Model.IsPreRelease
  httpGet := fun url => .ok url
  readAll := fun resp => .ok resp
  unmarshalList := servingTags tags
  unmarshalMap := fun _ =>
    .ok (fun key => if key = "body" then Iface.str "notes" else Iface.nil)
  sortSort := fun less => List.insertionSort (fun a b => less b a = false)
  GOOS := "linux"
  NewTermRenderer := fun style => if terminal then .ok style else .error "no terminal"
  Render := fun _ text => (text, none)
  String := Model.toString

/-! ## Vocabulary of the properties -/

/-- A strict weak order: irreflexive, transitive, and with transitive
incomparability. -/
structure StrictWeakOrder {α : Type} (less : α → α → Bool) : Prop where
  irrefl : ∀ a, less a a = false
  trans : ∀ a b c, less a b = true → less b c = true → less a c = true
  incomp_trans : ∀ a b c, less a b = false → less b a = false →
    less b c = false → less c b = false → less a c = false ∧ less c a = false

/-- The contract of `sort.Sort`: the result is a rearrangement of the input,
and for a strict weak order no element of it is less than one before it. -/
structure SortContract (env : Env) : Prop where
  perm : ∀ less xs, (env.sortSort less xs).Perm xs
  sorted : ∀ less, StrictWeakOrder less → ∀ xs,
    (env.sortSort less xs).Pairwise (fun a b => less b a = false)

/-- Descending order: no element is `less` than an element that comes after
it. -/
def Descending {α : Type} (less : α → α → Bool) (L : List α) : Prop :=
  L.Pairwise (fun a b => less a b = false)

/-- The remote tag list decodes to objects whose `name` fields are the
strings `ts`, in this order. -/
def Serves (env : Env) (ts : List String) : Prop :=
  ∃ resp body data, env.httpGet tagsURL = .ok resp ∧ env.readAll resp = .ok body ∧
    env.unmarshalList body = .ok data ∧
    data.map (fun tag => tag "name") = ts.map Iface.str

/-- The tag names of the targeted line: those that begin with `"v2"`, in
their original order. -/
def v2Line (ts : List String) : List String :=
  ts.filter (fun t => HasPrefix t "v2")

/-- The list `vs` holds, position by position, the versions
`NewSemanticVersion` makes of the names `ts`. -/
def ParsesTo (env : Env) (ts : List String) (vs : List env.Version) : Prop :=
  List.Forall₂ (fun t v => env.NewSemanticVersion t = .ok v) ts vs

/-- The value `v` is the element of `L` at index `i`, it satisfies `p`, and no
element at a smaller index does. -/
def FirstAt {α : Type} (p : α → Bool) (L : List α) (i : Nat) (v : α) : Prop :=
  L[i]? = some v ∧ p v = true ∧ ∀ j, j < i → ∀ w, L[j]? = some w → p w = false

/-- The environment that differs from `env` only in what the response body
decodes to as a tag list. -/
def Env.decoding (env : Env)
    (decode : env.Body → Except env.Err (List JSONObject)) : Env :=
  { env with unmarshalList := decode }

/-- No partial result: whenever a name of the line fails to parse,
`GetVersionTags` returns the error of the first such name together with the
empty list. -/
def NoPartialResult (env : Env) (ts : List String) : Prop :=
  ∀ (pre : List String) (t : String) (post : List String) (e : env.Err)
    (parsed : List env.Version),
    ts = pre ++ t :: post → HasPrefix t "v2" = true →
    env.NewSemanticVersion t = .error e → ParsesTo env (v2Line pre) parsed →
    (GetVersionTags env).out = .ret ([], some (.upstream e))

/-! ## Scenarios of the specification (section 8) -/

/-- The tags of the first scenario. -/
def scenarioTags : List String := ["v2.1.0", "v2.0.0-rc.1", "v1.9.0", "v2.2.0"]

/-- The first scenario: its tags, on a host with a terminal. -/
def scenarioEnv : Env := specEnv scenarioTags true

/-- Version `2.2.0`. -/
def v220 : Model.SemanticVersion := ⟨2, 2, 0, none, "2.2.0"⟩

/-- Version `2.1.0`. -/
def v210 : Model.SemanticVersion := ⟨2, 1, 0, none, "2.1.0"⟩

/-- Version `2.0.0-rc.1`. -/
def v200rc1 : Model.SemanticVersion :=
  ⟨2, 0, 0, some ⟨['r', 'c'], some 1⟩, "2.0.0-rc.1"⟩

/-- The descending list of the first scenario. -/
def scenarioVersions : List Model.SemanticVersion := [v220, v210, v200rc1]

/-- Tags with a malformed name on the targeted line, after a well-formed
one. -/
def malformedTags : List String := ["v2.1.0", "v2.x.0"]

/-- The malformed scenario. -/
def malformedEnv : Env := specEnv malformedTags true

/-- The scenario with no tag on the targeted line: the single tag
`v1.0.0`. -/
def otherLineEnv : Env := specEnv ["v1.0.0"] true

/-- A host on which no terminal renderer can be made. -/
def headlessEnv : Env := specEnv scenarioTags false

/-! ## The conversion loop -/

theorem v2Line_cons_of_pos {t : String} (ts : List String) (h : HasPrefix t "v2" = true) :
    v2Line (t :: ts) = t :: v2Line ts := by
  simp [v2Line, List.filter_cons, h]

theorem v2Line_cons_of_neg {t : String} (ts : List String) (h : HasPrefix t "v2" = false) :
    v2Line (t :: ts) = v2Line ts := by
  simp [v2Line, List.filter_cons, h]

theorem v2Line_append (ts us : List String) : v2Line (ts ++ us) = v2Line ts ++ v2Line us := by
  simp [v2Line]

theorem mem_v2Line {t : String} {ts : List String} :
    t ∈ v2Line ts ↔ t ∈ ts ∧ HasPrefix t "v2" = true := by
  simp [v2Line]

theorem v2Line_idem (ts : List String) : v2Line (v2Line ts) = v2Line ts := by
  simp [v2Line]

/-- Every name of the line parses: the loop runs to completion and has
appended the parses, in input order. -/
theorem convert_done (env : Env) :
    ∀ (ts : List String) (data : List JSONObject) (result parsed : List env.Version),
      data.map (fun tag => tag "name") = ts.map Iface.str →
      ParsesTo env (v2Line ts) parsed →
      GetVersionTags.convert env data result = .done (result ++ parsed) := by
  intro ts
  induction ts with
  | nil =>
    intro data result parsed hd hp
    have hdata : data = [] := by simpa using hd
    subst hdata
    have : parsed = [] := by
      cases hp
      rfl
    subst this
    simp [GetVersionTags.convert]
  | cons t ts ih =>
    intro data result parsed hd hp
    cases data with
    | nil => simp at hd
    | cons tag data =>
      simp only [List.map_cons, List.cons.injEq] at hd
      obtain ⟨hname, hrest⟩ := hd
      by_cases hpre : HasPrefix t "v2" = true
      · rw [v2Line_cons_of_pos ts hpre] at hp
        cases hp with
        | cons hv hvs =>
          rename_i v vs
          simp only [GetVersionTags.convert, hname, hpre, hv]
          simpa using ih data (result ++ [v]) vs hrest hvs
      · have hpre2 : HasPrefix t "v2" = false := by simpa using hpre
        rw [v2Line_cons_of_neg ts hpre2] at hp
        simp only [GetVersionTags.convert, hname, hpre2]
        simpa using ih data result parsed hrest hp

/-- Some name of the line does not parse: the loop returns at the first such
name, with its error and with the versions appended until then. -/
theorem convert_returned (env : Env) :
    ∀ (pre : List String) (t : String) (post : List String) (e : env.Err)
      (data : List JSONObject) (result parsed : List env.Version),
      data.map (fun tag => tag "name") = (pre ++ t :: post).map Iface.str →
      HasPrefix t "v2" = true → env.NewSemanticVersion t = .error e →
      ParsesTo env (v2Line pre) parsed →
      GetVersionTags.convert env data result =
        .returned (result ++ parsed, some (.upstream e)) := by
  intro pre
  induction pre with
  | nil =>
    intro t post e data result parsed hd ht he hp
    have : parsed = [] := by
      cases hp
      rfl
    subst this
    cases data with
    | nil => simp at hd
    | cons tag data =>
      simp only [List.nil_append, List.map_cons, List.cons.injEq] at hd
      simp [GetVersionTags.convert, hd.1, ht, he]
  | cons u pre ih =>
    intro t post e data result parsed hd ht he hp
    cases data with
    | nil => simp at hd
    | cons tag data =>
      simp only [List.cons_append, List.map_cons, List.cons.injEq] at hd
      obtain ⟨hname, hrest⟩ := hd
      by_cases hpre : HasPrefix u "v2" = true
      · rw [v2Line_cons_of_pos pre hpre] at hp
        cases hp with
        | cons hv hvs =>
          rename_i v vs
          simp only [GetVersionTags.convert, hname, hpre, hv]
          simpa using ih t post e data (result ++ [v]) vs hrest ht he hvs
      · have hpre2 : HasPrefix u "v2" = false := by simpa using hpre
        rw [v2Line_cons_of_neg pre hpre2] at hp
        simp only [GetVersionTags.convert, hname, hpre2]
        simpa using ih t post e data result parsed hrest ht he hp

/-- Either every name of the line parses, or there is a first one that does
not. -/
theorem parse_line_cases (env : Env) (ts : List String) :
    (∃ parsed, ParsesTo env (v2Line ts) parsed) ∨
    (∃ pre t post e parsed, ts = pre ++ t :: post ∧ HasPrefix t "v2" = true ∧
      env.NewSemanticVersion t = .error e ∧ ParsesTo env (v2Line pre) parsed) := by
  induction ts with
  | nil => exact Or.inl ⟨[], List.Forall₂.nil⟩
  | cons t ts ih =>
    by_cases hpre : HasPrefix t "v2" = true
    · cases hv : env.NewSemanticVersion t with
      | error e => exact Or.inr ⟨[], t, ts, e, [], rfl, hpre, hv, List.Forall₂.nil⟩
      | ok v =>
        rcases ih with ⟨parsed, hp⟩ | ⟨pre, u, post, e, parsed, hts, hu, he, hp⟩
        · refine Or.inl ⟨v :: parsed, ?_⟩
          rw [v2Line_cons_of_pos ts hpre]
          exact List.Forall₂.cons hv hp
        · refine Or.inr ⟨t :: pre, u, post, e, v :: parsed, by simp [hts], hu, he, ?_⟩
          rw [v2Line_cons_of_pos pre hpre]
          exact List.Forall₂.cons hv hp
    · have hpre2 : HasPrefix t "v2" = false := by simpa using hpre
      rcases ih with ⟨parsed, hp⟩ | ⟨pre, u, post, e, parsed, hts, hu, he, hp⟩
      · refine Or.inl ⟨parsed, ?_⟩
        rw [v2Line_cons_of_neg ts hpre2]
        exact hp
      · refine Or.inr ⟨t :: pre, u, post, e, parsed, by simp [hts], hu, he, ?_⟩
        rw [v2Line_cons_of_neg pre hpre2]
        exact hp

/-- The versions a list of names parses to are determined by the names. -/
theorem ParsesTo_unique (env : Env) :
    ∀ (ts : List String) (vs ws : List env.Version),
      ParsesTo env ts vs → ParsesTo env ts ws → vs = ws := by
  intro ts
  induction ts with
  | nil =>
    intro vs ws hv hw
    cases hv
    cases hw
    rfl
  | cons t ts ih =>
    intro vs ws hv hw
    cases hv with
    | cons h1 h2 =>
      cases hw with
      | cons h3 h4 =>
        rw [h1] at h3
        cases h3
        rw [ih _ _ h2 h4]

/-! ## Strict weak orders and the sort contract -/

theorem strictWeakOrder_asymm {α : Type} {less : α → α → Bool} (h : StrictWeakOrder less)
    (a b : α) (hab : less a b = true) : less b a = false := by
  cases hba : less b a with
  | false => rfl
  | true =>
    have := h.trans a b a hab hba
    rw [h.irrefl a] at this
    cases this

/-- Negative transitivity: if `a` is not below `b` and `b` is not below `c`,
then `a` is not below `c`. -/
theorem strictWeakOrder_neg_trans {α : Type} {less : α → α → Bool} (h : StrictWeakOrder less)
    (a b c : α) (hab : less a b = false) (hbc : less b c = false) : less a c = false := by
  cases hac : less a c with
  | false => rfl
  | true =>
    have hba : less b a = false := by
      cases hba : less b a with
      | false => rfl
      | true =>
        have := h.trans b a c hba hac
        rw [hbc] at this
        cases this
    have hcb : less c b = false := by
      cases hcb : less c b with
      | false => rfl
      | true =>
        have := h.trans a c b hac hcb
        rw [hab] at this
        cases this
    have := (h.incomp_trans a b c hab hba hbc hcb).1
    rw [hac] at this
    cases this

theorem strictWeakOrder_reverse {α : Type} {less : α → α → Bool} (h : StrictWeakOrder less) :
    StrictWeakOrder (Reverse less) where
  irrefl := fun a => h.irrefl a
  trans := fun a b c hab hbc => h.trans c b a hbc hab
  incomp_trans := fun a b c hab hba hbc hcb =>
    ⟨(h.incomp_trans a b c hba hab hcb hbc).2, (h.incomp_trans a b c hba hab hcb hbc).1⟩

/-- Insertion sort meets the contract of `sort.Sort`. -/
theorem insertionSort_contract {α : Type} (less : α → α → Bool) (xs : List α) :
    (List.insertionSort (fun a b => less b a = false) xs).Perm xs ∧
    (StrictWeakOrder less →
      (List.insertionSort (fun a b => less b a = false) xs).Pairwise
        (fun a b => less b a = false)) := by
  refine ⟨List.perm_insertionSort _ xs, fun h => ?_⟩
  have htotal : IsTotal α (fun a b => less b a = false) := by
    constructor
    intro a b
    cases hba : less b a with
    | false => exact Or.inl rfl
    | true => exact Or.inr (strictWeakOrder_asymm h b a hba)
  have htrans : IsTrans α (fun a b => less b a = false) := by
    constructor
    intro a b c hab hbc
    exact strictWeakOrder_neg_trans h c b a hbc hab
  exact List.sorted_insertionSort (fun a b => less b a = false) xs

theorem specEnv_sortContract (tags : List String) (terminal : Bool) :
    SortContract (specEnv tags terminal) where
  perm := fun less xs => (insertionSort_contract less xs).1
  sorted := fun less h xs => (insertionSort_contract less xs).2 h

/-- The order of the version model is a strict weak order. -/
theorem model_less_strictWeakOrder : StrictWeakOrder Model.Less where
  irrefl := fun a => by simp [Model.Less]
  trans := fun a b c hab hbc => by
    simp only [Model.Less, decide_eq_true_eq] at *
    exact lt_trans hab hbc
  incomp_trans := fun a b c hab hba hbc hcb => by
    simp only [Model.Less, decide_eq_false_iff_not, not_lt] at *
    exact ⟨le_trans hbc hab, le_trans hba hcb⟩

/-! ## The order of the model, in the words of the specification -/

/-- Section 4.2, step 1: major, then minor, then patch, numerically; the first
difference decides, and on a tie the pre-release qualifiers do. -/
theorem model_less_iff (a b : Model.SemanticVersion) :
    Model.Less a b = true ↔
      a.major < b.major ∨ (a.major = b.major ∧ (a.minor < b.minor ∨ (a.minor = b.minor ∧
        (a.patch < b.patch ∨ (a.patch = b.patch ∧
          Model.rank a.prerelease < Model.rank b.prerelease))))) := by
  simp only [Model.Less, Model.key, decide_eq_true_eq, Prod.Lex.lt_iff, ofLex_toLex]

/-- Section 4.2, step 2: a stable version ranks above every pre-release. -/
theorem model_rank_stable (p : Model.PreRelease) :
    Model.rank (some p) < Model.rank none := by
  simp [Model.rank, Prod.Lex.lt_iff]

/-- Section 4.2, step 3: pre-releases rank by label, then by number, an absent
number before a present one. -/
theorem model_rank_prerelease (p q : Model.PreRelease) :
    Model.rank (some p) < Model.rank (some q) ↔
      p.label.map Char.toNat < q.label.map Char.toNat ∨
      (p.label = q.label ∧
        ((p.number = none ∧ q.number ≠ none) ∨
          ∃ m n, p.number = some m ∧ q.number = some n ∧ m < n)) := by
  have hinj : p.label.map Char.toNat = q.label.map Char.toNat ↔ p.label = q.label := by
    constructor
    · intro h
      refine List.map_injective_iff.mpr ?_ h
      intro x y hxy
      have := congrArg Char.ofNat hxy
      simpa using this
    · intro h
      rw [h]
  simp only [Model.rank, Prod.Lex.lt_iff, ofLex_toLex, lt_self_iff_false, true_and, false_or, hinj]
  cases hp : p.number <;> cases hq : q.number <;> simp

theorem tagObjects_names (names : List String) :
    (tagObjects names).map (fun tag => tag "name") = names.map Iface.str := by
  simp [tagObjects, List.map_map, Function.comp_def]

theorem specEnv_serves (tags : List String) (terminal : Bool) :
    Serves (specEnv tags terminal) tags :=
  ⟨tagsURL, tagsURL, _, rfl, rfl, rfl, tagObjects_names tags⟩

theorem specEnv_decoding_serves (tags names : List String) (terminal : Bool) :
    Serves ((specEnv tags terminal).decoding (servingTags names)) names :=
  ⟨tagsURL, tagsURL, _, rfl, rfl, rfl, tagObjects_names names⟩

/-! ## GetVersionTags on a served tag list -/

theorem GetVersionTags_of_parses {env : Env} {ts : List String} {parsed : List env.Version}
    (hts : Serves env ts) (hp : ParsesTo env (v2Line ts) parsed) :
    GetVersionTags env =
      ⟨.ret (env.sortSort (Reverse env.Less) parsed, none), [tagsURL]⟩ := by
  obtain ⟨resp, body, data, h1, h2, h3, h4⟩ := hts
  have hc := convert_done env ts data [] parsed h4 hp
  simp only [List.nil_append] at hc
  simp only [GetVersionTags, h1, h2, h3, hc]

theorem GetVersionTags_of_failure {env : Env} {pre post : List String} {t : String}
    {e : env.Err} {parsed : List env.Version}
    (hts : Serves env (pre ++ t :: post)) (ht : HasPrefix t "v2" = true)
    (he : env.NewSemanticVersion t = .error e) (hp : ParsesTo env (v2Line pre) parsed) :
    GetVersionTags env = ⟨.ret (parsed, some (.upstream e)), [tagsURL]⟩ := by
  obtain ⟨resp, body, data, h1, h2, h3, h4⟩ := hts
  have hc := convert_returned env pre t post e data [] parsed h4 ht he hp
  simp only [List.nil_append] at hc
  simp only [GetVersionTags, h1, h2, h3, hc]

/-- An error the loop returns comes from `NewSemanticVersion`. -/
theorem convert_returned_upstream (env : Env) :
    ∀ (data : List JSONObject) (result : List env.Version)
      (r : List env.Version × Option (GoError env.Err)),
      GetVersionTags.convert env data result = .returned r →
      ∃ e, r.2 = some (.upstream e) := by
  intro data
  induction data with
  | nil =>
    intro result r h
    simp [GetVersionTags.convert] at h
  | cons tag data ih =>
    intro result r h
    unfold GetVersionTags.convert at h
    split at h
    · split at h
      · exact ih _ _ h
      · split at h
        · cases h
          exact ⟨_, rfl⟩
        · exact ih _ _ h
    · cases h

/-- Every error of `GetVersionTags` is one it received from a callee. -/
theorem GetVersionTags_error_upstream (env : Env) (r : List env.Version)
    (e : GoError env.Err) (h : (GetVersionTags env).out = .ret (r, some e)) :
    ∃ e0, e = .upstream e0 := by
  unfold GetVersionTags at h
  split at h
  · cases h
    exact ⟨_, rfl⟩
  · split at h
    · cases h
      exact ⟨_, rfl⟩
    · split at h
      · cases h
        exact ⟨_, rfl⟩
      · dsimp only at h
        split at h
        · cases h
        · rename_i r0 hc
          cases h
          obtain ⟨e0, he0⟩ := convert_returned_upstream env _ _ _ hc
          simp only [Option.some.injEq] at he0
          exact ⟨e0, he0⟩
        · cases h

/-- The requests of `GetVersionTags`: exactly one, for the tag list. -/
theorem GetVersionTags_requests (env : Env) : (GetVersionTags env).requests = [tagsURL] := by
  unfold GetVersionTags
  split
  · rfl
  · split
    · rfl
    · split
      · rfl
      · dsimp only
        split <;> rfl

/-! ## The scanning loops -/

/-- A loop that returns the first element satisfying `p`, and `err` when
there is none. -/
theorem first_scan_cases {α ε : Type} (p : α → Bool) (err : ε)
    (f : List α → Option α × Option ε) (hnil : f [] = (none, some err))
    (hcons : ∀ a l, f (a :: l) = if p a = true then (some a, none) else f l) :
    ∀ L : List α,
      (∃ i v, FirstAt p L i v ∧ f L = (some v, none)) ∨
      ((∀ w ∈ L, p w = false) ∧ f L = (none, some err)) := by
  intro L
  induction L with
  | nil => exact Or.inr ⟨by simp, hnil⟩
  | cons a l ih =>
    cases hp : p a with
    | true =>
      refine Or.inl ⟨0, a, ⟨by simp, hp, ?_⟩, by simp [hcons, hp]⟩
      intro j hj
      omega
    | false =>
      rcases ih with ⟨i, v, ⟨hi, hv, hlt⟩, hf⟩ | ⟨hall, hf⟩
      · refine Or.inl ⟨i + 1, v, ⟨by simpa using hi, hv, ?_⟩, by simp [hcons, hp, hf]⟩
        intro j hj w hw
        cases j with
        | zero =>
          simp only [List.getElem?_cons_zero, Option.some.injEq] at hw
          rw [← hw]
          exact hp
        | succ j =>
          simp only [List.getElem?_cons_succ] at hw
          exact hlt j (by omega) w hw
      · refine Or.inr ⟨?_, by simp [hcons, hp, hf]⟩
        intro w hw
        rcases List.mem_cons.mp hw with rfl | hw
        · exact hp
        · exact hall w hw

theorem FirstAt_mem {α : Type} {p : α → Bool} {L : List α} {i : Nat} {v : α}
    (h : FirstAt p L i v) : v ∈ L :=
  List.getElem?_mem h.1

theorem stable_scan_cases (env : Env) (L : List env.Version) :
    (∃ i v, FirstAt env.IsRelease L i v ∧
      GetLatestStableRelease.scan env L = (some v, none)) ∨
    ((∀ w ∈ L, env.IsRelease w = false) ∧
      GetLatestStableRelease.scan env L = (none, some (.errorf "no release tag found"))) :=
  first_scan_cases env.IsRelease _ (GetLatestStableRelease.scan env) rfl (fun _ _ => rfl) L

theorem prerelease_scan_cases (env : Env) (L : List env.Version) :
    (∃ i v, FirstAt env.IsPreRelease L i v ∧
      GetLatestPreRelease.scan env L = (some v, none)) ∨
    ((∀ w ∈ L, env.IsPreRelease w = false) ∧
      GetLatestPreRelease.scan env L = (none, some (.errorf "no prerelease tag found"))) :=
  first_scan_cases env.IsPreRelease _ (GetLatestPreRelease.scan env) rfl (fun _ _ => rfl) L

/-- The membership loop of `IsValidTag` returns no error, and `true` exactly
when some version has the wanted string form. -/
theorem valid_scan_spec (env : Env) (wanted : String) (L : List env.Version) :
    ∃ b, IsValidTag.scan env wanted L = (b, none) ∧
      (b = true ↔ ∃ v ∈ L, env.String v = wanted) := by
  induction L with
  | nil => exact ⟨false, rfl, by simp⟩
  | cons a l ih =>
    by_cases ha : env.String a = wanted
    · exact ⟨true, by simp [IsValidTag.scan, ha], by simp [ha]⟩
    · obtain ⟨b, hb, hiff⟩ := ih
      refine ⟨b, by simp [IsValidTag.scan, ha, hb], ?_⟩
      rw [hiff]
      simp [ha]

theorem GetLatestStableRelease_of_tags {env : Env} {L : List env.Version}
    (h : (GetVersionTags env).out = .ret (L, none)) :
    (GetLatestStableRelease env).out = .ret (GetLatestStableRelease.scan env L) := by
  simp only [GetLatestStableRelease, h]

theorem GetLatestStableRelease_of_error {env : Env} {r : List env.Version}
    {e : GoError env.Err} (h : (GetVersionTags env).out = .ret (r, some e)) :
    (GetLatestStableRelease env).out = .ret (none, some e) := by
  simp only [GetLatestStableRelease, h]

theorem GetLatestPreRelease_of_tags {env : Env} {L : List env.Version}
    (h : (GetVersionTags env).out = .ret (L, none)) :
    (GetLatestPreRelease env).out = .ret (GetLatestPreRelease.scan env L) := by
  simp only [GetLatestPreRelease, h]

theorem GetLatestPreRelease_of_error {env : Env} {r : List env.Version}
    {e : GoError env.Err} (h : (GetVersionTags env).out = .ret (r, some e)) :
    (GetLatestPreRelease env).out = .ret (none, some e) := by
  simp only [GetLatestPreRelease, h]

/-! ## Results on GetVersionTags -/

/-- The list of a successful `GetVersionTags` is the sorted list of the
parses of the line. -/
theorem GetVersionTags_success_form (env : Env) (ts : List String)
    (L : List env.Version) (hts : Serves env ts)
    (hL : (GetVersionTags env).out = .ret (L, none)) :
    ∃ parsed, ParsesTo env (v2Line ts) parsed ∧
      L = env.sortSort (Reverse env.Less) parsed := by
  rcases parse_line_cases env ts with ⟨parsed, hp⟩ | ⟨pre, t, post, e, parsed, hsplit, ht, he, hp⟩
  · rw [GetVersionTags_of_parses hts hp] at hL
    simp only [Outcome.ret.injEq, Prod.mk.injEq, and_true] at hL
    exact ⟨parsed, hp, hL.symm⟩
  · subst hsplit
    rw [GetVersionTags_of_failure hts ht he hp] at hL
    simp at hL

/-- C1: when `GetVersionTags` succeeds on a sequence of tag names, the list it
returns is a permutation of the `NewSemanticVersion` parses of exactly the
names that begin with `"v2"` (same length, nothing added or lost), and it is
in descending order: no element is `Less` than an element that comes after
it. The order is a strict weak order and `sort.Sort` meets its contract. -/
theorem GetVersionTags_sorted_permutation (env : Env) (ts : List String)
    (L : List env.Version) (hsort : SortContract env) (hless : StrictWeakOrder env.Less)
    (hts : Serves env ts) (hL : (GetVersionTags env).out = .ret (L, none)) :
    (∃ parsed, ParsesTo env (v2Line ts) parsed ∧ L.Perm parsed ∧
      L.length = (v2Line ts).length) ∧
    Descending env.Less L := by
  obtain ⟨parsed, hp, hform⟩ := GetVersionTags_success_form env ts L hts hL
  subst hform
  have hperm := hsort.perm (Reverse env.Less) parsed
  refine ⟨⟨parsed, hp, hperm, ?_⟩, ?_⟩
  · rw [hperm.length_eq]
    exact (List.Forall₂.length_eq hp).symm
  · have hsorted := hsort.sorted (Reverse env.Less) (strictWeakOrder_reverse hless) parsed
    unfold Descending
    refine hsorted.imp ?_
    intro a b hab
    exact hab

/-- C1 at the first scenario of the specification. -/
theorem GetVersionTags_sorted_permutation_witness :
    (GetVersionTags scenarioEnv).out = .ret (scenarioVersions, none) ∧
    Descending Model.Less scenarioVersions :=
  ⟨rfl, (GetVersionTags_sorted_permutation scenarioEnv scenarioTags scenarioVersions
    (specEnv_sortContract _ _) model_less_strictWeakOrder (specEnv_serves _ _) rfl).2⟩

/-- C2, as stated, fails: on the tags `v2.1.0`, `v2.x.0` the error of
`v2.x.0` comes back together with the parsed `2.1.0`, not with the empty
list. -/
theorem NoPartialResult_counterexample : ¬ NoPartialResult malformedEnv malformedTags := by
  intro h
  have hempty := h ["v2.1.0"] "v2.x.0" [] "v2.x.0" [v210] rfl rfl rfl
    (List.Forall₂.cons rfl List.Forall₂.nil)
  have hreal : (GetVersionTags malformedEnv).out = .ret ([v210], some (.upstream "v2.x.0")) := rfl
  rw [hreal] at hempty
  simp at hempty

/-- C2, amended: when a name beginning with `"v2"` fails to parse,
`GetVersionTags` returns the parse error of the first such name in input
order, together with the versions parsed from the `"v2"` names before it, in
input order. -/
theorem GetVersionTags_parse_failure (env : Env) (pre : List String) (t : String)
    (post : List String) (e : env.Err) (parsed : List env.Version)
    (hts : Serves env (pre ++ t :: post)) (ht : HasPrefix t "v2" = true)
    (he : env.NewSemanticVersion t = .error e) (hp : ParsesTo env (v2Line pre) parsed) :
    (GetVersionTags env).out = .ret (parsed, some (.upstream e)) := by
  rw [GetVersionTags_of_failure hts ht he hp]

/-- C2, amended, at the malformed scenario. -/
theorem GetVersionTags_parse_failure_witness :
    HasPrefix "v2.x.0" "v2" = true ∧
    malformedEnv.NewSemanticVersion "v2.x.0" = .error "v2.x.0" ∧
    (GetVersionTags malformedEnv).out = .ret ([v210], some (.upstream "v2.x.0")) :=
  ⟨rfl, rfl, GetVersionTags_parse_failure malformedEnv ["v2.1.0"] "v2.x.0" [] "v2.x.0" [v210]
    (specEnv_serves _ _) rfl rfl (List.Forall₂.cons rfl List.Forall₂.nil)⟩

/-- C6: names that do not begin with `"v2"` have no effect. `GetVersionTags`
on a sequence of names and on its subsequence of `"v2"` names ends the same
way, and when every `"v2"` name parses it returns no error, whatever the other
names are. -/
theorem GetVersionTags_ignores_other_lines (env : Env) (ts : List String)
    (decode decode2 : env.Body → Except env.Err (List JSONObject))
    (hts : Serves (env.decoding decode) ts)
    (hline : Serves (env.decoding decode2) (v2Line ts)) :
    GetVersionTags (env.decoding decode) = GetVersionTags (env.decoding decode2) ∧
    ((∀ t ∈ ts, HasPrefix t "v2" = true → ∃ v, env.NewSemanticVersion t = .ok v) →
      ∃ L, (GetVersionTags (env.decoding decode)).out = .ret (L, none)) := by
  constructor
  · rcases parse_line_cases (env.decoding decode) ts with
      ⟨parsed, hp⟩ | ⟨pre, t, post, e, parsed, hsplit, ht, he, hp⟩
    · rw [GetVersionTags_of_parses hts hp]
      have hp2 : ParsesTo (env.decoding decode2) (v2Line (v2Line ts)) parsed := by
        rw [v2Line_idem]
        exact hp
      rw [GetVersionTags_of_parses hline hp2]
      rfl
    · subst hsplit
      rw [GetVersionTags_of_failure hts ht he hp]
      have hsplit2 : v2Line (pre ++ t :: post) = v2Line pre ++ t :: v2Line post := by
        rw [v2Line_append, v2Line_cons_of_pos post ht]
      rw [hsplit2] at hline
      have hp2 : ParsesTo (env.decoding decode2) (v2Line (v2Line pre)) parsed := by
        rw [v2Line_idem]
        exact hp
      rw [GetVersionTags_of_failure hline ht he hp2]
  · intro hall
    rcases parse_line_cases (env.decoding decode) ts with
      ⟨parsed, hp⟩ | ⟨pre, t, post, e, parsed, hsplit, ht, he, hp⟩
    · exact ⟨_, by rw [GetVersionTags_of_parses hts hp]⟩
    · subst hsplit
      obtain ⟨v, hv⟩ := hall t (by simp) ht
      change env.NewSemanticVersion t = .error e at he
      rw [hv] at he
      cases he

/-- C6 at the first scenario: dropping `v1.9.0` from the tags changes
nothing. -/
theorem GetVersionTags_ignores_other_lines_witness :
    GetVersionTags (scenarioEnv.decoding (servingTags scenarioTags)) =
      GetVersionTags (scenarioEnv.decoding (servingTags (v2Line scenarioTags))) :=
  (GetVersionTags_ignores_other_lines scenarioEnv scenarioTags (servingTags scenarioTags)
    (servingTags (v2Line scenarioTags)) (specEnv_decoding_serves _ _ _)
    (specEnv_decoding_serves _ _ _)).1

/-! ## Strings -/

theorem data_v_append (s : String) : ("v" ++ s).data = 'v' :: s.data := by
  rw [String.data_append]
  rfl

theorem hasPrefix_v_iff (c : String) : HasPrefix c "v" = true ↔ ∃ s, c = "v" ++ s := by
  constructor
  · intro h
    have hd : c.data.head? = some 'v' := by
      unfold HasPrefix at h
      cases hc : c.data with
      | nil => simp [hc, List.isPrefixOf] at h
      | cons ch rest =>
        rw [hc] at h
        have : ("v" : String).data = ['v'] := rfl
        rw [this] at h
        simp [List.isPrefixOf] at h
        simp [← h]
    refine ⟨String.mk c.data.tail, ?_⟩
    apply String.ext
    rw [data_v_append]
    cases hc : c.data with
    | nil => simp [hc] at hd
    | cons ch rest =>
      rw [hc] at hd
      simp at hd
      simp [hd]
  · rintro ⟨s, rfl⟩
    unfold HasPrefix
    rw [data_v_append]
    have : ("v" : String).data = ['v'] := rfl
    rw [this]
    simp [List.isPrefixOf]

theorem v_append_cancel (s t : String) : "v" ++ s = "v" ++ t ↔ s = t := by
  constructor
  · intro h
    have := congrArg String.data h
    rw [data_v_append, data_v_append] at this
    apply String.ext
    simpa using this
  · rintro rfl
    rfl

/-! ## IsValidTag on the listed versions -/

theorem IsValidTag_v_append {env : Env} {r : List env.Version}
    {err : Option (GoError env.Err)} (h : (GetVersionTags env).out = .ret (r, err))
    (s : String) :
    (IsValidTag env ("v" ++ s)).out =
      match err with
      | none => .ret (IsValidTag.scan env s r)
      | some e => .ret (false, some e) := by
  have hd := data_v_append s
  unfold IsValidTag
  split
  · rename_i heq
    rw [hd] at heq
    cases heq
  · rename_i c rest heq
    rw [hd] at heq
    cases heq
    cases err with
    | none => simp [h]
    | some e => simp [h]

theorem IsValidTag_plain {env : Env} {r : List env.Version}
    {err : Option (GoError env.Err)} (h : (GetVersionTags env).out = .ret (r, err))
    (c : String) (hc : c ≠ "") (hv : HasPrefix c "v" = false) :
    (IsValidTag env c).out =
      match err with
      | none => .ret (IsValidTag.scan env c r)
      | some e => .ret (false, some e) := by
  unfold IsValidTag
  split
  · rename_i heq
    exact absurd (String.ext heq) hc
  · rename_i ch rest heq
    have hne : ch ≠ 'v' := by
      intro hch
      have : HasPrefix c "v" = true := by
        rw [hasPrefix_v_iff]
        refine ⟨String.mk rest, ?_⟩
        apply String.ext
        rw [data_v_append, heq, hch]
      rw [hv] at this
      cases this
    cases err with
    | none => simp [h, hne]
    | some e => simp [h, hne]

/-! ## Results on the latest releases -/

theorem FirstAt_unique {α : Type} {p : α → Bool} {L : List α} {i j : Nat} {v w : α}
    (hv : FirstAt p L i v) (hw : FirstAt p L j w) : i = j ∧ v = w := by
  have hij : i = j := by
    rcases Nat.lt_trichotomy i j with hlt | heq | hgt
    · have := hw.2.2 i hlt v hv.1
      rw [hv.2.1] at this
      cases this
    · exact heq
    · have := hv.2.2 j hgt w hw.1
      rw [hw.2.1] at this
      cases this
  subst hij
  have := hv.1.symm.trans hw.1
  simp only [Option.some.injEq] at this
  exact ⟨rfl, this⟩

/-- A loop returning the first element that satisfies `p` returns each
`FirstAt` element, and its error exactly when no element satisfies `p`. -/
theorem first_scan_spec {α ε : Type} (p : α → Bool) (err : ε)
    (f : List α → Option α × Option ε) (L : List α)
    (hcases : (∃ i v, FirstAt p L i v ∧ f L = (some v, none)) ∨
      ((∀ w ∈ L, p w = false) ∧ f L = (none, some err))) :
    (∀ i v, FirstAt p L i v → f L = (some v, none)) ∧
    (f L = (none, some err) ↔ ∀ w ∈ L, p w = false) := by
  rcases hcases with ⟨i, v, hF, hf⟩ | ⟨hall, hf⟩
  · refine ⟨fun j w hG => ?_, ?_⟩
    · rw [← (FirstAt_unique hF hG).2]
      exact hf
    · constructor
      · intro hnone
        rw [hf] at hnone
        simp at hnone
      · intro hall
        have := hall v (FirstAt_mem hF)
        rw [hF.2.1] at this
        cases this
  · refine ⟨fun j w hG => ?_, ?_⟩
    · have := hall w (FirstAt_mem hG)
      rw [hG.2.1] at this
      cases this
    · exact ⟨fun _ => hall, fun _ => hf⟩

/-- With no name on the line, a sorting `GetVersionTags` returns the empty
list. -/
theorem GetVersionTags_of_empty_line {env : Env} {ts : List String} (hts : Serves env ts)
    (hsort : SortContract env) (hline : v2Line ts = []) :
    (GetVersionTags env).out = .ret ([], none) := by
  have hp : ParsesTo env (v2Line ts) [] := by
    rw [hline]
    exact List.Forall₂.nil
  rw [GetVersionTags_of_parses hts hp]
  have := (hsort.perm (Reverse env.Less) []).eq_nil
  simp only [this]

/-- C3: when `GetVersionTags` returns, `GetLatestStableRelease` returns the
element of the list with the smallest index for which `IsRelease` holds, and
the error "no release tag found" exactly when no element satisfies
`IsRelease`, as happens when no tag name begins with `"v2"`; when
`GetVersionTags` returns an error, it returns no version and that error, which
is not "no release tag found". -/
theorem GetLatestStableRelease_first_release (env : Env) (r : List env.Version)
    (err : Option (GoError env.Err)) (h : (GetVersionTags env).out = .ret (r, err)) :
    (err = none →
      (∀ i v, FirstAt env.IsRelease r i v →
        (GetLatestStableRelease env).out = .ret (some v, none)) ∧
      ((GetLatestStableRelease env).out = .ret (none, some (.errorf "no release tag found")) ↔
        ∀ w ∈ r, env.IsRelease w = false) ∧
      ((∃ i v, FirstAt env.IsRelease r i v) ∨ ∀ w ∈ r, env.IsRelease w = false)) ∧
    (∀ ts, Serves env ts → SortContract env → v2Line ts = [] →
      (GetLatestStableRelease env).out = .ret (none, some (.errorf "no release tag found"))) ∧
    (∀ e, err = some e →
      (GetLatestStableRelease env).out = .ret (none, some e) ∧
      e ≠ .errorf "no release tag found") := by
  refine ⟨?_, ?_, ?_⟩
  · intro hnone
    subst hnone
    rw [GetLatestStableRelease_of_tags h]
    have hspec := first_scan_spec env.IsRelease _ (GetLatestStableRelease.scan env) r
      (stable_scan_cases env r)
    refine ⟨fun i v hF => by rw [hspec.1 i v hF], ?_, ?_⟩
    · rw [← hspec.2]
      simp
    · rcases stable_scan_cases env r with ⟨i, v, hF, _⟩ | ⟨hall, _⟩
      · exact Or.inl ⟨i, v, hF⟩
      · exact Or.inr hall
  · intro ts hts hsort hline
    rw [GetLatestStableRelease_of_tags (GetVersionTags_of_empty_line hts hsort hline)]
    rfl
  · intro e he
    subst he
    refine ⟨GetLatestStableRelease_of_error h, ?_⟩
    obtain ⟨e0, he0⟩ := GetVersionTags_error_upstream env r e h
    rw [he0]
    simp

/-- C3 at the first scenario, where the latest stable release is `2.2.0`, the
element at index 0, and at the scenario of the single tag `v1.0.0`, where
there is none. -/
theorem GetLatestStableRelease_first_release_witness :
    (GetVersionTags scenarioEnv).out = .ret (scenarioVersions, none) ∧
    FirstAt Model.IsRelease scenarioVersions 0 v220 ∧
    (GetLatestStableRelease scenarioEnv).out = .ret (some v220, none) ∧
    (GetLatestStableRelease otherLineEnv).out =
      .ret (none, some (.errorf "no release tag found")) :=
  ⟨rfl, ⟨rfl, rfl, fun _ hj => absurd hj (Nat.not_lt_zero _)⟩,
    ((GetLatestStableRelease_first_release scenarioEnv scenarioVersions none rfl).1 rfl).1
      0 v220 ⟨rfl, rfl, fun _ hj => absurd hj (Nat.not_lt_zero _)⟩,
    (GetLatestStableRelease_first_release otherLineEnv [] none rfl).2.1 ["v1.0.0"]
      (specEnv_serves _ _) (specEnv_sortContract _ _) rfl⟩

/-- C4: when `GetVersionTags` returns, `GetLatestPreRelease` returns the
element of the list with the smallest index for which `IsPreRelease` holds,
and the error "no prerelease tag found" exactly when no element satisfies
`IsPreRelease`; when `GetVersionTags` returns an error, it returns no version
and that error. -/
theorem GetLatestPreRelease_first_prerelease (env : Env) (r : List env.Version)
    (err : Option (GoError env.Err)) (h : (GetVersionTags env).out = .ret (r, err)) :
    (err = none →
      (∀ i v, FirstAt env.IsPreRelease r i v →
        (GetLatestPreRelease env).out = .ret (some v, none)) ∧
      ((GetLatestPreRelease env).out =
          .ret (none, some (.errorf "no prerelease tag found")) ↔
        ∀ w ∈ r, env.IsPreRelease w = false) ∧
      ((∃ i v, FirstAt env.IsPreRelease r i v) ∨ ∀ w ∈ r, env.IsPreRelease w = false)) ∧
    (∀ e, err = some e → (GetLatestPreRelease env).out = .ret (none, some e)) := by
  refine ⟨?_, ?_⟩
  · intro hnone
    subst hnone
    rw [GetLatestPreRelease_of_tags h]
    have hspec := first_scan_spec env.IsPreRelease _ (GetLatestPreRelease.scan env) r
      (prerelease_scan_cases env r)
    refine ⟨fun i v hF => by rw [hspec.1 i v hF], ?_, ?_⟩
    · rw [← hspec.2]
      simp
    · rcases prerelease_scan_cases env r with ⟨i, v, hF, _⟩ | ⟨hall, _⟩
      · exact Or.inl ⟨i, v, hF⟩
      · exact Or.inr hall
  · intro e he
    subst he
    exact GetLatestPreRelease_of_error h

theorem scenario_first_prerelease :
    FirstAt Model.IsPreRelease scenarioVersions 2 v200rc1 := by
  refine ⟨rfl, rfl, ?_⟩
  intro j hj w hw
  interval_cases j
  · simp only [scenarioVersions, List.getElem?_cons_zero, Option.some.injEq] at hw
    subst hw
    rfl
  · simp only [scenarioVersions, List.getElem?_cons_succ, List.getElem?_cons_zero,
      Option.some.injEq] at hw
    subst hw
    rfl

/-- C4 at the first scenario: the latest pre-release is `2.0.0-rc.1`, the
element at index 2. -/
theorem GetLatestPreRelease_first_prerelease_witness :
    (GetVersionTags scenarioEnv).out = .ret (scenarioVersions, none) ∧
    FirstAt Model.IsPreRelease scenarioVersions 2 v200rc1 ∧
    (GetLatestPreRelease scenarioEnv).out = .ret (some v200rc1, none) :=
  ⟨rfl, scenario_first_prerelease,
    ((GetLatestPreRelease_first_prerelease scenarioEnv scenarioVersions none rfl).1 rfl).1
      2 v200rc1 scenario_first_prerelease⟩

/-! ## Results on IsValidTag -/

/-- C5: for a non-empty candidate `c`, when `GetVersionTags` returns a list
without error, `IsValidTag c` returns no error and `true` exactly when some
element `v` of the list has `v.String()` equal to `c` without its one leading
`v` (that is, `c = "v" + v.String()`), or equal to `c` itself when `c` does
not begin with `v`; when `GetVersionTags` returns an error, `IsValidTag c`
returns `false` and that error. -/
theorem IsValidTag_spec (env : Env) (c : String) (r : List env.Version)
    (err : Option (GoError env.Err)) (hc : c ≠ "")
    (h : (GetVersionTags env).out = .ret (r, err)) :
    (err = none →
      ((∃ v ∈ r, c = "v" ++ env.String v ∨ (HasPrefix c "v" = false ∧ c = env.String v)) →
        (IsValidTag env c).out = .ret (true, none)) ∧
      ((¬ ∃ v ∈ r, c = "v" ++ env.String v ∨ (HasPrefix c "v" = false ∧ c = env.String v)) →
        (IsValidTag env c).out = .ret (false, none))) ∧
    (∀ e, err = some e → (IsValidTag env c).out = .ret (false, some e)) := by
  suffices hmain : (err = none → ∃ b, (IsValidTag env c).out = .ret (b, none) ∧
      (b = true ↔ ∃ v ∈ r, c = "v" ++ env.String v ∨
        (HasPrefix c "v" = false ∧ c = env.String v))) ∧
      (∀ e, err = some e → (IsValidTag env c).out = .ret (false, some e)) by
    refine ⟨fun hnone => ?_, hmain.2⟩
    obtain ⟨b, hb, hiff⟩ := hmain.1 hnone
    refine ⟨fun hex => ?_, fun hno => ?_⟩
    · rw [hb, hiff.mpr hex]
    · cases b with
      | false => exact hb
      | true => exact absurd (hiff.mp rfl) hno
  cases hv : HasPrefix c "v" with
  | true =>
    obtain ⟨s, rfl⟩ := (hasPrefix_v_iff c).mp hv
    have hout := IsValidTag_v_append h s
    refine ⟨?_, ?_⟩
    · intro hnone
      subst hnone
      obtain ⟨b, hb, hiff⟩ := valid_scan_spec env s r
      refine ⟨b, by rw [hout, hb], ?_⟩
      rw [hiff]
      constructor
      · rintro ⟨v, hvr, hs⟩
        exact ⟨v, hvr, Or.inl (by rw [hs])⟩
      · rintro ⟨v, hvr, hs | ⟨hf, _⟩⟩
        · exact ⟨v, hvr, ((v_append_cancel _ _).mp hs).symm⟩
        · cases hf
    · intro e he
      subst he
      rw [hout]
  | false =>
    have hout := IsValidTag_plain h c hc hv
    refine ⟨?_, ?_⟩
    · intro hnone
      subst hnone
      obtain ⟨b, hb, hiff⟩ := valid_scan_spec env c r
      refine ⟨b, by rw [hout, hb], ?_⟩
      rw [hiff]
      constructor
      · rintro ⟨v, hvr, hs⟩
        exact ⟨v, hvr, Or.inr ⟨rfl, hs.symm⟩⟩
      · rintro ⟨v, hvr, hs | ⟨_, hs⟩⟩
        · have : HasPrefix c "v" = true := (hasPrefix_v_iff c).mpr ⟨_, hs⟩
          rw [hv] at this
          cases this
        · exact ⟨v, hvr, hs.symm⟩
    · intro e he
      subst he
      rw [hout]

/-- C5 at the first scenario: `2.2.0` is a valid tag, being the string form
of the listed `2.2.0`. -/
theorem IsValidTag_spec_witness :
    (GetVersionTags scenarioEnv).out = .ret (scenarioVersions, none) ∧
    (IsValidTag scenarioEnv "2.2.0").out = .ret (true, none) :=
  ⟨rfl, ((IsValidTag_spec scenarioEnv "2.2.0" scenarioVersions none (by decide) rfl).1 rfl).1
    ⟨v220, List.mem_cons_self _ _, Or.inr ⟨rfl, rfl⟩⟩⟩

/-- C7: on the empty candidate `IsValidTag` panics at the index expression,
whatever the tags are: it does not return `(false, nil)`, and it has
requested nothing. -/
theorem IsValidTag_empty_panics (env : Env) :
    (IsValidTag env "").out = .panic .indexOutOfRange ∧
    (IsValidTag env "").out ≠ .ret (false, none) ∧
    (IsValidTag env "").requests = [] :=
  ⟨rfl, fun h => Outcome.noConfusion h, rfl⟩

/-- C10: every listed version is recognised as a valid tag. When
`GetVersionTags` succeeds with `L`, for every element `v` of `L`, and so for
the results of `GetLatestStableRelease` and `GetLatestPreRelease`,
`IsValidTag("v" + v.String())` returns `(true, nil)`, and so does
`IsValidTag(v.String())` when `v.String()` is non-empty and does not begin
with `v`. -/
theorem listed_versions_are_valid (env : Env) (L : List env.Version)
    (hL : (GetVersionTags env).out = .ret (L, none)) :
    ∀ v, (v ∈ L ∨ (GetLatestStableRelease env).out = .ret (some v, none) ∨
        (GetLatestPreRelease env).out = .ret (some v, none)) →
      (IsValidTag env ("v" ++ env.String v)).out = .ret (true, none) ∧
      (env.String v ≠ "" → HasPrefix (env.String v) "v" = false →
        (IsValidTag env (env.String v)).out = .ret (true, none)) := by
  intro v hv
  have hmem : v ∈ L := by
    rcases hv with hv | hv | hv
    · exact hv
    · rw [GetLatestStableRelease_of_tags hL] at hv
      rcases stable_scan_cases env L with ⟨i, w, hF, hf⟩ | ⟨_, hf⟩
      · rw [hf] at hv
        simp only [Outcome.ret.injEq, Prod.mk.injEq, Option.some.injEq, and_true] at hv
        rw [← hv]
        exact FirstAt_mem hF
      · rw [hf] at hv
        simp at hv
    · rw [GetLatestPreRelease_of_tags hL] at hv
      rcases prerelease_scan_cases env L with ⟨i, w, hF, hf⟩ | ⟨_, hf⟩
      · rw [hf] at hv
        simp only [Outcome.ret.injEq, Prod.mk.injEq, Option.some.injEq, and_true] at hv
        rw [← hv]
        exact FirstAt_mem hF
      · rw [hf] at hv
        simp at hv
  have hscan : IsValidTag.scan env (env.String v) L = (true, none) := by
    obtain ⟨b, hb, hiff⟩ := valid_scan_spec env (env.String v) L
    have : b = true := hiff.mpr ⟨v, hmem, rfl⟩
    rw [hb, this]
  refine ⟨?_, ?_⟩
  · rw [IsValidTag_v_append hL (env.String v), hscan]
  · intro hne hpre
    rw [IsValidTag_plain hL (env.String v) hne hpre, hscan]

/-- C10 at the first scenario: `v2.2.0` is a valid tag. -/
theorem listed_versions_are_valid_witness :
    (GetVersionTags scenarioEnv).out = .ret (scenarioVersions, none) ∧
    (IsValidTag scenarioEnv ("v" ++ scenarioEnv.String v220)).out = .ret (true, none) :=
  ⟨rfl, (listed_versions_are_valid scenarioEnv scenarioVersions rfl v220
    (Or.inl (List.mem_cons_self _ _))).1⟩

/-! ## Results on GetReleaseNotes -/

/-- C8, the code at the failing step: when the request, the read and the
decoding succeed and a `body` field is present, but no terminal renderer can
be made, `GetReleaseNotes` returns the empty string with a nil error. -/
theorem GetReleaseNotes_renderer_failure (env : Env) (tagVersion : String)
    (resp : env.Response) (body : env.Body) (data : JSONObject) (e : env.Err)
    (hget : env.httpGet (releaseURL tagVersion) = .ok resp)
    (hread : env.readAll resp = .ok body)
    (hjson : env.unmarshalMap body = .ok data)
    (hbody : data "body" ≠ Iface.nil)
    (hmade : (if env.GOOS = "windows" then env.NewTermRenderer .noTTY
      else env.NewTermRenderer .auto) = .error e) :
    GetReleaseNotes env tagVersion = ⟨.ret ("", none), [releaseURL tagVersion]⟩ := by
  simp only [GetReleaseNotes, hget, hread, hjson, hbody, if_false, hmade]

/-- C8 at a host without a terminal: the release notes of `v2.2.0` come back
empty and without an error. -/
theorem GetReleaseNotes_renderer_failure_witness :
    headlessEnv.NewTermRenderer .auto = .error "no terminal" ∧
    GetReleaseNotes headlessEnv "v2.2.0" = ⟨.ret ("", none), [releaseURL "v2.2.0"]⟩ :=
  ⟨rfl, GetReleaseNotes_renderer_failure headlessEnv "v2.2.0" (releaseURL "v2.2.0")
    (releaseURL "v2.2.0") _ "no terminal" rfl rfl rfl (by decide) rfl⟩

/-! ## The latest release is a maximum -/

theorem ParsesTo_mem (env : Env) :
    ∀ (ts : List String) (vs : List env.Version), ParsesTo env ts vs →
      ∀ t ∈ ts, ∀ w, env.NewSemanticVersion t = .ok w → w ∈ vs := by
  intro ts vs h
  induction h with
  | nil =>
    intro t ht
    cases ht
  | cons hv _ ih =>
    intro t ht w hw
    rcases List.mem_cons.mp ht with rfl | ht
    · rw [hv] at hw
      cases hw
      exact List.mem_cons_self _ _
    · exact List.mem_cons_of_mem _ (ih t ht w hw)

/-- In a descending list, the first element satisfying `p` is below no
element satisfying `p`. -/
theorem first_is_maximum {α : Type} {less : α → α → Bool} {p : α → Bool} {L : List α}
    {i : Nat} {v : α} (hless : StrictWeakOrder less) (hdesc : Descending less L)
    (hF : FirstAt p L i v) (w : α) (hw : w ∈ L) (hp : p w = true) : less v w = false := by
  obtain ⟨j, hj⟩ := List.getElem?_of_mem hw
  rcases Nat.lt_trichotomy i j with hlt | heq | hgt
  · obtain ⟨hi, hvi⟩ := List.getElem?_eq_some.mp hF.1
    obtain ⟨hjl, hwj⟩ := List.getElem?_eq_some.mp hj
    have := (List.pairwise_iff_getElem.mp hdesc) i j hi hjl hlt
    rw [hvi, hwj] at this
    exact this
  · subst heq
    have := hF.1.symm.trans hj
    simp only [Option.some.injEq] at this
    subst this
    exact hless.irrefl v
  · have := hF.2.2 j hgt w hj
    rw [hp] at this
    cases this

theorem GetLatestStableRelease_success {env : Env} {v : env.Version}
    (h : (GetLatestStableRelease env).out = .ret (some v, none)) :
    ∃ L, (GetVersionTags env).out = .ret (L, none) ∧
      GetLatestStableRelease.scan env L = (some v, none) := by
  unfold GetLatestStableRelease at h
  dsimp only at h
  split at h
  · cases h
  · simp at h
  · rename_i tags hout
    simp only [Outcome.ret.injEq] at h
    exact ⟨tags, hout, h⟩

theorem GetLatestPreRelease_success {env : Env} {v : env.Version}
    (h : (GetLatestPreRelease env).out = .ret (some v, none)) :
    ∃ L, (GetVersionTags env).out = .ret (L, none) ∧
      GetLatestPreRelease.scan env L = (some v, none) := by
  unfold GetLatestPreRelease at h
  dsimp only at h
  split at h
  · cases h
  · simp at h
  · rename_i tags hout
    simp only [Outcome.ret.injEq] at h
    exact ⟨tags, hout, h⟩

/-- C9: for a strict weak order `Less` and a `sort.Sort` that meets its
contract, the version `GetLatestStableRelease` returns is a maximum of the
stable versions: no parse `w` of a tag name beginning with `"v2"` that
satisfies `IsRelease` has `Less(v, w)`. The same holds for
`GetLatestPreRelease` among the versions satisfying `IsPreRelease`. -/
theorem latest_is_maximum (env : Env) (ts : List String) (hsort : SortContract env)
    (hless : StrictWeakOrder env.Less) (hts : Serves env ts) :
    (∀ v, (GetLatestStableRelease env).out = .ret (some v, none) →
      ∀ t ∈ ts, HasPrefix t "v2" = true → ∀ w, env.NewSemanticVersion t = .ok w →
        env.IsRelease w = true → env.Less v w = false) ∧
    (∀ v, (GetLatestPreRelease env).out = .ret (some v, none) →
      ∀ t ∈ ts, HasPrefix t "v2" = true → ∀ w, env.NewSemanticVersion t = .ok w →
        env.IsPreRelease w = true → env.Less v w = false) := by
  have hlist : ∀ L, (GetVersionTags env).out = .ret (L, none) →
      Descending env.Less L ∧
      ∀ t ∈ ts, HasPrefix t "v2" = true → ∀ w, env.NewSemanticVersion t = .ok w → w ∈ L := by
    intro L hL
    obtain ⟨parsed, hp, hform⟩ := GetVersionTags_success_form env ts L hts hL
    subst hform
    refine ⟨hsort.sorted (Reverse env.Less) (strictWeakOrder_reverse hless) parsed,
      fun t ht hpre w hw => ?_⟩
    exact (hsort.perm (Reverse env.Less) parsed).symm.subset
      (ParsesTo_mem env _ _ hp t (mem_v2Line.mpr ⟨ht, hpre⟩) w hw)
  constructor
  · intro v hv t ht hpre w hw hrel
    obtain ⟨L, hL, hscan⟩ := GetLatestStableRelease_success hv
    obtain ⟨hdesc, hmem⟩ := hlist L hL
    rcases stable_scan_cases env L with ⟨i, v0, hF, hf⟩ | ⟨_, hf⟩
    · rw [hf] at hscan
      simp only [Prod.mk.injEq, Option.some.injEq, and_true] at hscan
      subst hscan
      exact first_is_maximum hless hdesc hF w (hmem t ht hpre w hw) hrel
    · rw [hf] at hscan
      simp at hscan
  · intro v hv t ht hpre w hw hrel
    obtain ⟨L, hL, hscan⟩ := GetLatestPreRelease_success hv
    obtain ⟨hdesc, hmem⟩ := hlist L hL
    rcases prerelease_scan_cases env L with ⟨i, v0, hF, hf⟩ | ⟨_, hf⟩
    · rw [hf] at hscan
      simp only [Prod.mk.injEq, Option.some.injEq, and_true] at hscan
      subst hscan
      exact first_is_maximum hless hdesc hF w (hmem t ht hpre w hw) hrel
    · rw [hf] at hscan
      simp at hscan

/-- C9 at the first scenario: the latest stable release `2.2.0` is not below
the stable `2.1.0`. -/
theorem latest_is_maximum_witness :
    (GetLatestStableRelease scenarioEnv).out = .ret (some v220, none) ∧
    scenarioEnv.NewSemanticVersion "v2.1.0" = .ok v210 ∧
    scenarioEnv.Less v220 v210 = false :=
  ⟨rfl, rfl, (latest_is_maximum scenarioEnv scenarioTags (specEnv_sortContract _ _)
    model_less_strictWeakOrder (specEnv_serves _ _)).1 v220 rfl "v2.1.0"
    (List.mem_cons_self _ _) rfl v210 rfl rfl⟩

end Github
